import Mathlib

/-!
Shallow embedding of the Malt node-graph transpiler
(src/BlenderMalt/MaltNodes.py) and proofs about the claims of its
specification.  Python strings are modelled as lists of characters,
socket and node graphs as explicit records and functions, Python
`None` as `Option.none`, and Python's unbounded recursion as
fuel-indexed recursion where an outer `none` marks a run that never
returns (a RecursionError in CPython).
-/

namespace MaltNodes

/-! Characters and shared transpiler helpers. -/

/-- The character test used by `MaltNode.get_source_name`:
`char.isalnum() or char == '_'`.  The alphanumeric predicate is kept
abstract so results cover Python's full Unicode `isalnum`. -/
def keeps_char (is_alnum : Char → Bool) (c : Char) : Bool :=
  is_alnum c || c == '_'

/-- Python `name.replace('.', '_')` (single-character replacement of
every occurrence). -/
def replace_dots : List Char → List Char :=
  List.map fun c => if c == '.' then '_' else c

/-- Python `name.replace('__', '_')`: leftmost, non-overlapping
replacement of each double underscore by a single one. -/
def collapse_double_underscore : List Char → List Char
  | [] => []
  | [c] => [c]
  | c1 :: c2 :: rest =>
    if c1 = '_' ∧ c2 = '_' then '_' :: collapse_double_underscore rest
    else c1 :: collapse_double_underscore (c2 :: rest)

/-- `MaltNode.get_source_name`: replace dots by underscores, keep only
alphanumeric or underscore characters, prepend an underscore, then
collapse double underscores. -/
def get_source_name (is_alnum : Char → Bool) (name : List Char) : List Char :=
  collapse_double_underscore
    ('_' :: (replace_dots name).filter (keeps_char is_alnum))

/-- `GLSLTranspiler.parameter_reference`: the f-string
`{node_name}_0_{parameter_name}`. -/
def parameter_reference (node_name parameter_name : List Char) : List Char :=
  node_name ++ '_' :: '0' :: '_' :: parameter_name

/-- `GLSLTranspiler.global_reference`: the f-string
`U_0{node_name}_0_{parameter_name}`. -/
def global_reference (node_name parameter_name : List Char) : List Char :=
  'U' :: '_' :: '0' :: (node_name ++ '_' :: '0' :: '_' :: parameter_name)

/-! Lemmas about `collapse_double_underscore` and `get_source_name`. -/

theorem collapse_double_underscore_subset :
    ∀ l, ∀ c ∈ collapse_double_underscore l, c ∈ l := by
  intro l
  induction l using collapse_double_underscore.induct with
  | case1 => intro c hc; cases hc
  | case2 d => intro c hc; simpa [collapse_double_underscore] using hc
  | case3 c1 c2 rest h ih =>
    intro c hc
    rw [collapse_double_underscore, if_pos h] at hc
    rcases List.mem_cons.mp hc with h1 | h1
    · simp [h1, h.1]
    · exact List.mem_cons_of_mem _ (List.mem_cons_of_mem _ (ih c h1))
  | case4 c1 c2 rest h ih =>
    intro c hc
    rw [collapse_double_underscore, if_neg h] at hc
    rcases List.mem_cons.mp hc with h1 | h1
    · simp [h1]
    · exact List.mem_cons_of_mem _ (ih c h1)

theorem collapse_double_underscore_head :
    ∀ l, ∃ t, collapse_double_underscore ('_' :: l) = '_' :: t := by
  intro l
  cases l with
  | nil => exact ⟨[], rfl⟩
  | cons c rest =>
    by_cases h : c = '_'
    · subst h
      refine ⟨collapse_double_underscore rest, ?_⟩
      rw [collapse_double_underscore, if_pos ⟨rfl, rfl⟩]
    · refine ⟨collapse_double_underscore (c :: rest), ?_⟩
      rw [collapse_double_underscore, if_neg ?_]
      rintro ⟨-, h2⟩
      exact h h2

/-- C10: for every display name (any character list, including the empty
one) and every alphanumeric predicate, `get_source_name` yields a
non-empty identifier that starts with an underscore and whose every
character is alphanumeric or an underscore, so the generated identifier
is lexically valid independently of the user-chosen name. -/
theorem c10_source_name_lexically_valid (is_alnum : Char → Bool) (name : List Char) :
    get_source_name is_alnum name ≠ [] ∧
    (get_source_name is_alnum name).head? = some '_' ∧
    ∀ c ∈ get_source_name is_alnum name, is_alnum c = true ∨ c = '_' := by
  obtain ⟨t, ht⟩ :=
    collapse_double_underscore_head ((replace_dots name).filter (keeps_char is_alnum))
  unfold get_source_name
  rw [ht]
  refine ⟨by simp, rfl, ?_⟩
  intro c hc
  have hmem : c ∈ '_' :: (replace_dots name).filter (keeps_char is_alnum) := by
    have := collapse_double_underscore_subset
      ('_' :: (replace_dots name).filter (keeps_char is_alnum)) c
    rw [ht] at this
    exact this hc
  rcases List.mem_cons.mp hmem with h1 | h1
  · exact Or.inr h1
  · have hk : keeps_char is_alnum c = true := List.of_mem_filter h1
    unfold keeps_char at hk
    rcases Bool.or_eq_true_iff.mp hk with h2 | h2
    · exact Or.inl h2
    · exact Or.inr (by simpa using h2)

/-- C4 counterexample: two distinct (node name, socket name) pairs whose
mangled identifiers coincide, both for `parameter_reference` and for
`global_reference`, after the node names pass through
`MaltNode.get_source_name`.  The separator `_0_` can be simulated by the
names themselves. -/
theorem c4_mangling_collision :
    parameter_reference (get_source_name Char.isAlphanum ['a']) ['b', '_', '0', '_', 'c'] =
      parameter_reference (get_source_name Char.isAlphanum ['a', '_', '0', '_', 'b']) ['c'] ∧
    global_reference (get_source_name Char.isAlphanum ['a']) ['b', '_', '0', '_', 'c'] =
      global_reference (get_source_name Char.isAlphanum ['a', '_', '0', '_', 'b']) ['c'] ∧
    ((['a'], ['b', '_', '0', '_', 'c']) : List Char × List Char) ≠
      (['a', '_', '0', '_', 'b'], ['c']) := by
  decide

/-- C4 (amended): the mangling is injective in each component
separately: two pairs that agree on the socket name but have node names
with distinct sanitized forms, or agree on the node name but have
distinct socket names, always receive distinct identifiers, both for
`parameter_reference` and for `global_reference`.  Joint injectivity
over both components fails (see the counterexample). -/
theorem c4_mangling_injective_per_component (is_alnum : Char → Bool)
    (a b s t : List Char)
    (h : (get_source_name is_alnum a = get_source_name is_alnum b ∧ s ≠ t) ∨
         (s = t ∧ get_source_name is_alnum a ≠ get_source_name is_alnum b)) :
    parameter_reference (get_source_name is_alnum a) s ≠
      parameter_reference (get_source_name is_alnum b) t ∧
    global_reference (get_source_name is_alnum a) s ≠
      global_reference (get_source_name is_alnum b) t := by
  rcases h with ⟨hab, hst⟩ | ⟨hst, hab⟩
  · rw [hab]
    constructor
    · intro h1
      unfold parameter_reference at h1
      have h2 := List.append_cancel_left h1
      simp only [List.cons.injEq] at h2
      exact hst h2.2.2.2
    · intro h1
      unfold global_reference at h1
      simp only [List.cons.injEq] at h1
      have h2 := List.append_cancel_left h1.2.2.2
      simp only [List.cons.injEq] at h2
      exact hst h2.2.2.2
  · rw [hst]
    constructor
    · intro h1
      unfold parameter_reference at h1
      exact hab (List.append_cancel_right h1)
    · intro h1
      unfold global_reference at h1
      simp only [List.cons.injEq] at h1
      exact hab (List.append_cancel_right h1.2.2.2)

/-- C4 witness: the amended injectivity applied at a concrete pair of
inputs sharing a node name but with distinct socket names. -/
theorem c4_mangling_witness :
    parameter_reference (get_source_name Char.isAlphanum ['x']) ['p'] ≠
      parameter_reference (get_source_name Char.isAlphanum ['x']) ['q'] ∧
    global_reference (get_source_name Char.isAlphanum ['x']) ['p'] ≠
      global_reference (get_source_name Char.isAlphanum ['x']) ['q'] :=
  c4_mangling_injective_per_component Char.isAlphanum ['x'] ['x'] ['p'] ['q']
    (Or.inl ⟨rfl, by decide⟩)

/-! More shared GLSL transpiler operations. -/

def sampler_chars : List Char := ['s', 'a', 'm', 'p', 'l', 'e', 'r']

def void_chars : List Char := ['v', 'o', 'i', 'd']

def result_name : List Char := ['r', 'e', 's', 'u', 'l', 't']

/-- Python `p.startswith(l)` specialised to character lists (needle
first, haystack second). -/
def starts_with : List Char → List Char → Bool
  | [], _ => true
  | _ :: _, [] => false
  | p :: ps, c :: cs => p == c && starts_with ps cs

/-- `GLSLTranspiler.is_instantiable_type` and the identical
`MaltSocket.is_instantiable_type`: `type.startswith('sampler') == False`. -/
def is_instantiable_type (type : List Char) : Bool :=
  !(starts_with sampler_chars type)

/-- Decimal digits of a number, for the array-size suffix. -/
def nat_chars (n : Nat) : List Char := (Nat.repr n).data

/-- `GLSLTranspiler.declaration`: the f-string
`{type} {name}{array}{asignment};\n`; the array suffix appears when
`size != 0` and the initializer is dropped when it is Python-falsy
(`None` or the empty string). -/
def declaration (type : List Char) (size : Nat) (name : List Char)
    (initialization : Option (List Char)) : List Char :=
  let array := if size == 0 then [] else '[' :: nat_chars size ++ [']']
  let asg := match initialization with
    | none => []
    | some i => if i == [] then [] else ' ' :: '=' :: ' ' :: i
  type ++ ' ' :: name ++ array ++ asg ++ [';', '\n']

/-- `GLSLTranspiler.asignment`: the f-string `{name} = {asignment};\n`
(the misspelling is the source's). -/
def asignment (name a : List Char) : List Char :=
  name ++ ' ' :: '=' :: ' ' :: a ++ [';', '\n']

/-- `GLSLTranspiler.result`: the f-string `return {result};\n`. -/
def result_stmt (r : List Char) : List Char :=
  ['r', 'e', 't', 'u', 'r', 'n', ' '] ++ r ++ [';', '\n']

/-! C1: `MaltSocket.get_source_reference`. -/

/-- A socket as seen by `MaltSocket.get_source_reference`: its data
type, direction, the socket id its `get_linked` resolves to (Python
`None` when unlinked; `get_linked` itself is modelled with C2), and the
value of `self.node.get_source_socket_reference(self)`. -/
structure MSocket where
  data_type : List Char
  is_output : Bool
  linked : Option Nat
  node_ref : List Char

/-- `MaltSocket.get_source_reference`.  When the socket is an
non-instantiable input with a link, the source evaluates
`self.get_linked().get_source_reference()` but lacks a `return`, so the
Python function returns `None`: the evaluated value is discarded and
the branch yields `some none`.  The outer `none` is fuel exhaustion. -/
def get_source_reference (env : Nat → MSocket) : Nat → Nat → Option (Option (List Char))
  | 0, _ => none
  | fuel + 1, i =>
    let s := env i
    if !(is_instantiable_type s.data_type) && !s.is_output && s.linked.isSome then
      match s.linked with
      | none => some none
      | some j =>
        match get_source_reference env fuel j with
        | none => none
        | some _ => some none
    else some (some s.node_ref)

/-- Socket 0 is a linked sampler input; socket 1 is its upstream
sampler output whose node-specific reference is `_up`. -/
def c1_env : Nat → MSocket := fun i =>
  if i = 0 then
    ⟨['s', 'a', 'm', 'p', 'l', 'e', 'r', '2', 'D'], false, some 1, ['_', 'n', '0']⟩
  else
    ⟨['s', 'a', 'm', 'p', 'l', 'e', 'r', '2', 'D'], true, none, ['_', 'u', 'p']⟩

/-- C1: on a linked sampler input the function returns Python `None`
(`some none`), not the linked socket's reference `_up` that the linked
socket itself produces, because the branch at MaltNodes.py line 426 has
no `return`; on every other socket the owning node's reference is
returned. -/
theorem c1_missing_return_eval :
    get_source_reference c1_env 2 0 = some none ∧
    get_source_reference c1_env 2 1 = some (some ['_', 'u', 'p']) ∧
    (some none : Option (Option (List Char))) ≠ some (some ['_', 'u', 'p']) := by
  decide

/-! C2: `MaltSocket.get_linked`. -/

/-- The socket graph as seen by `get_linked_internal`: `link s` is the
opposite endpoint of the first link of socket `s` (Python
`link.to_socket` / `link.from_socket`), `reroute t` says whether that
endpoint's node is a `NodeReroute`, and `reroute_first t` is the first
socket on the reroute node's opposite side (`None` when that side is
empty). -/
structure RerouteGraph where
  link : Nat → Option Nat
  reroute : Nat → Bool
  reroute_first : Nat → Option Nat

/-- `MaltSocket.get_linked` (the inner `get_linked_internal`): follows
the first link, recursing through reroute nodes.  The source has no
visited set or depth bound, so the fuel models Python's recursion
depth; a run that exhausts every fuel corresponds to infinite
recursion. -/
def get_linked (g : RerouteGraph) : Nat → Nat → Option (Option Nat)
  | 0, _ => none
  | fuel + 1, s =>
    match g.link s with
    | none => some none
    | some linked =>
      if g.reroute linked then
        match g.reroute_first linked with
        | none => some none
        | some s2 => get_linked g fuel s2
      else some (some linked)

/-- `get_linked` never produces a result on this graph, whatever the
recursion depth: the resolution diverges. -/
def get_linked_diverges (g : RerouteGraph) (s : Nat) : Prop :=
  ∀ fuel, get_linked g fuel s = none

/-- A cycle of two reroute nodes: socket 10 links to reroute output 1,
whose input 2 links to reroute output 3, whose input 4 links back to
reroute output 1. -/
def c2_graph : RerouteGraph where
  link := fun s =>
    if s = 10 then some 1 else if s = 2 then some 3 else if s = 4 then some 1 else none
  reroute := fun n => n == 1 || n == 3
  reroute_first := fun n => if n = 1 then some 2 else if n = 3 then some 4 else none

theorem c2_cycle_aux :
    ∀ fuel, get_linked c2_graph fuel 2 = none ∧ get_linked c2_graph fuel 4 = none := by
  intro fuel
  induction fuel with
  | zero => exact ⟨rfl, rfl⟩
  | succ f ih =>
    constructor
    · show get_linked c2_graph (f + 1) 2 = none
      simpa [get_linked, c2_graph] using ih.2
    · show get_linked c2_graph (f + 1) 4 = none
      simpa [get_linked, c2_graph] using ih.1

/-- C2: on a pure pass-through cycle `get_linked` never terminates with
a socket or the unlinked marker; the recursion revisits the same
reroute sockets forever (a RecursionError in CPython), refuting the
claimed termination on cyclic pass-through wiring. -/
theorem c2_reroute_cycle_diverges : get_linked_diverges c2_graph 10 := by
  intro fuel
  cases fuel with
  | zero => rfl
  | succ f => simpa [get_linked, c2_graph] using (c2_cycle_aux f).1

/-! C3: `MaltIONode.get_source_code`. -/

/-- A boundary input socket of a Graph-I/O node, carrying the values of
the socket-level calls made by `MaltIONode.get_source_code`:
`socket.get_source_global_reference()`, the linked socket's
`get_source_reference()` when `socket.get_linked()` is truthy, and
`socket.get_source_reference()`. -/
structure BoundarySocket where
  name : List Char
  global_ref : List Char
  linked_ref : Option (List Char)
  source_ref : List Char
deriving DecidableEq

/-- `MaltIONode.get_source_code` with the GLSL transpiler.  The Python
`for` loop leaks its variable: after the loop, `socket` is the last
element of `self.inputs`, and the unlinked default of the `result`
statement reads THAT socket's global reference (line 795).  `none`
models the NameError on an empty input list and the KeyError on a
missing `result` socket. -/
def io_get_source_code (is_output : Bool) (function_type : List Char)
    (inputs : List BoundarySocket) : Option (List Char) :=
  if !is_output then some [] else
  let body := (inputs.filterMap fun s =>
    if s.name == result_name then none
    else some (asignment s.source_ref (match s.linked_ref with
      | some l => l
      | none => s.global_ref))).flatten
  if function_type == void_chars then some body
  else
    match inputs.getLast? with
    | none => none
    | some last =>
      match inputs.find? (fun s => s.name == result_name) with
      | none => none
      | some rs =>
        let r := match rs.linked_ref with
          | some l => l
          | none => last.global_ref
        some (body ++ result_stmt r)

def c3_result_socket : BoundarySocket :=
  ⟨result_name, ['U', 'r'], none, result_name⟩

def c3_color_socket : BoundarySocket :=
  ⟨['C', 'o', 'l', 'o', 'r'], ['U', 'c'], none, ['C', 'o', 'l', 'o', 'r']⟩

/-- C3: on an exit node with non-void return whose `result` input is
unlinked and which has a trailing boundary parameter `Color`, the
emitted `result` statement reads the LAST socket's global reference
`Uc` instead of the `result` socket's own global reference `Ur`; with
the `result` input linked the emission is as claimed. -/
theorem c3_result_default_eval :
    io_get_source_code true ['v', 'e', 'c', '4'] [c3_result_socket, c3_color_socket] =
      some (asignment ['C', 'o', 'l', 'o', 'r'] ['U', 'c'] ++ result_stmt ['U', 'c']) ∧
    (['U', 'c'] : List Char) ≠ ['U', 'r'] ∧
    io_get_source_code true ['v', 'e', 'c', '4']
        [⟨result_name, ['U', 'r'], some ['L', 'R'], result_name⟩, c3_color_socket] =
      some (asignment ['C', 'o', 'l', 'o', 'r'] ['U', 'c'] ++ result_stmt ['L', 'R']) := by
  decide

/-! C5: the link-normalization pass of `MaltTree.update`. -/

/-- A link with the data type and array size of its two endpoint
sockets. -/
structure GLink where
  from_type : List Char
  from_size : Nat
  to_type : List Char
  to_size : Nat
deriving DecidableEq

/-- The removal condition of `MaltTree.update`:
`from_socket.data_type != to_socket.data_type or
from_socket.array_size != to_socket.array_size`. -/
def link_mismatch (l : GLink) : Bool :=
  !(l.from_type == l.to_type && l.from_size == l.to_size)

/-- One run of the `for link in self.links: ... self.links.remove(link)`
loop of `MaltTree.update`, under Python's sequence-iteration semantics:
removing the current element shifts the remaining links left, so the
element right after a removed one is never examined. -/
def normalize_links_pass : List GLink → List GLink
  | [] => []
  | [l] => if link_mismatch l then [] else [l]
  | l1 :: l2 :: rest =>
    if link_mismatch l1 then l2 :: normalize_links_pass rest
    else l1 :: normalize_links_pass (l2 :: rest)

def c5_bad1 : GLink := ⟨['f', 'l', 'o', 'a', 't'], 0, ['i', 'n', 't'], 0⟩

def c5_bad2 : GLink := ⟨['v', 'e', 'c', '4'], 0, ['i', 'n', 't'], 0⟩

/-- C5: with two consecutive mismatched links, the single
normalization pass removes only the first one; the second mismatched
link survives the pass, and re-running the pass removes it, so the
pass is not idempotent either. -/
theorem c5_normalization_skips_eval :
    normalize_links_pass [c5_bad1, c5_bad2] = [c5_bad2] ∧
    link_mismatch c5_bad2 = true ∧
    normalize_links_pass (normalize_links_pass [c5_bad1, c5_bad2]) = [] := by
  decide

/-! C8: `MaltArrayIndexNode`. -/

def array_name : List Char := ['a', 'r', 'r', 'a', 'y']

def index_name : List Char := ['i', 'n', 'd', 'e', 'x']

def element_name : List Char := ['e', 'l', 'e', 'm', 'e', 'n', 't']

def int_chars : List Char := ['i', 'n', 't']

/-- `MaltArrayIndexNode.malt_update`: the (name, (type, size)) input
and output schemas passed to `setup_sockets`.  `linked` carries the
data type and array size of the socket resolved by
`self.inputs['array'].get_linked()`, or `none` when unlinked. -/
def array_index_malt_update (linked : Option (List Char × Nat)) :
    List (List Char × List Char × Nat) × List (List Char × List Char × Nat) :=
  let base_inputs := [(array_name, (([] : List Char), 1)), (index_name, (int_chars, 0))]
  let base_outputs := [(element_name, (([] : List Char), 0))]
  match linked with
  | some (t, n) =>
    if n > 0 then
      ([(array_name, (t, n)), (index_name, (int_chars, 0))], [(element_name, (t, 0))])
    else (base_inputs, base_outputs)
  | none => (base_inputs, base_outputs)

/-- `MaltArrayIndexNode.get_source_code` with the GLSL transpiler.
`array_linked` and `index_linked` are the linked sockets' source
references (`none` when the socket is unlinked).  The array reference
comes from `array.get_linked().get_source_reference()` with no `None`
check, so an unlinked array raises AttributeError, modelled as
`none`. -/
def array_index_get_source_code (array_linked index_linked : Option (List Char))
    (index_global_ref element_type : List Char) (element_size : Nat)
    (element_ref : List Char) : Option (List Char) :=
  let element_reference := match index_linked with
    | some r => r
    | none => index_global_ref
  match array_linked with
  | none => none
  | some a =>
    some (declaration element_type element_size element_ref
      (some (a ++ '[' :: element_reference ++ [']'])))

/-- C8: with the `array` input unlinked the schema does fall back to
the untyped placeholder (`array` of empty type and size 1, `element`
of empty type and size 0), but `get_source_code` does not return a
declaration: it fails (AttributeError on `None`), unlike the linked
case, which yields the claimed indexing declaration. -/
theorem c8_array_index_unlinked_eval :
    array_index_malt_update none =
      ([(array_name, (([] : List Char), 1)), (index_name, (int_chars, 0))],
        [(element_name, (([] : List Char), 0))]) ∧
    array_index_get_source_code none none ['U', 'i'] [] 0 ['e'] = none ∧
    array_index_get_source_code (some ['A']) none ['U', 'i'] [] 0 ['e'] =
      some (declaration [] 0 ['e'] (some (['A'] ++ '[' :: ['U', 'i'] ++ [']']))) := by
  decide

/-! C9: the updates-disabled suppression flag. -/

/-- The state visible to `MaltTree.update` and `MaltTree.reload_nodes`:
the tree's `disable_updates` flag plus an abstract payload for
everything else (links, generated files, ...). -/
structure TreeState (σ : Type) where
  disable_updates : Bool
  payload : σ

/-- `MaltTree.update`: the early returns when updates are disabled or no
pipeline graph exists, then the flag is raised, the whole body runs
under `try/except` (the body returns its final state and whether it
raised; a bare `except` swallows either way), and the flag is reset on
the single exit path after the handler. -/
def tree_update {σ : Type} (has_pipeline : Bool)
    (body : TreeState σ → TreeState σ × Bool) (s : TreeState σ) : TreeState σ :=
  if s.disable_updates then s
  else if !has_pipeline then s
  else
    let r := body { s with disable_updates := true }
    { r.1 with disable_updates := false }

/-- `MaltTree.reload_nodes`: same raise/try/reset pattern, with no
guard at entry. -/
def reload_nodes {σ : Type} (body : TreeState σ → TreeState σ × Bool)
    (s : TreeState σ) : TreeState σ :=
  let r := body { s with disable_updates := true }
  { r.1 with disable_updates := false }

/-- The state visible to `MaltNode._disable_updates_wrapper`: the
owning tree's flag, the node's own flag, and an abstract payload. -/
structure NodeState (σ : Type) where
  tree_disable_updates : Bool
  node_disable_updates : Bool
  payload : σ

/-- `MaltNode._disable_updates_wrapper`: raises both flags, runs the
wrapped `malt_init`/`malt_setup`/`malt_update` under a bare
`try/except`, then resets both flags. -/
def disable_updates_wrapper {σ : Type} (body : NodeState σ → NodeState σ × Bool)
    (s : NodeState σ) : NodeState σ :=
  let r := body { s with tree_disable_updates := true, node_disable_updates := true }
  { r.1 with tree_disable_updates := false, node_disable_updates := false }

/-- C9: after a run of `MaltTree.update` entered with updates enabled,
after any run of `MaltTree.reload_nodes`, and after any run of a
node's wrapped setup/init/update, the suppression flags are `false`
again, for every body, including bodies that raise (`body`'s Boolean
marks a raised exception, swallowed by the bare `except`) and bodies
that themselves toggle the flags. -/
theorem c9_flag_reset {σ : Type} (has_pipeline : Bool)
    (b1 b2 : TreeState σ → TreeState σ × Bool)
    (b3 : NodeState σ → NodeState σ × Bool)
    (s t : TreeState σ) (u : NodeState σ)
    (h : s.disable_updates = false) :
    (tree_update has_pipeline b1 s).disable_updates = false ∧
    (reload_nodes b2 t).disable_updates = false ∧
    (disable_updates_wrapper b3 u).tree_disable_updates = false ∧
    (disable_updates_wrapper b3 u).node_disable_updates = false := by
  refine ⟨?_, rfl, rfl, rfl⟩
  unfold tree_update
  rw [h]
  cases has_pipeline <;> simp [h]

/-- A body that mutates the payload, re-raises the flag and raises an
exception, for the witness. -/
def c9_body : TreeState Nat → TreeState Nat × Bool := fun s =>
  ({ disable_updates := true, payload := s.payload + 1 }, true)

def c9_node_body : NodeState Nat → NodeState Nat × Bool := fun s => (s, true)

/-- C9 witness: the reset property applied to concrete states and a
concretely raising body. -/
theorem c9_flag_reset_witness :
    (({ disable_updates := false, payload := 0 } : TreeState Nat).disable_updates = false) ∧
    (tree_update true c9_body { disable_updates := false, payload := 0 }).disable_updates
      = false ∧
    (reload_nodes c9_body { disable_updates := true, payload := 5 }).disable_updates
      = false ∧
    (disable_updates_wrapper c9_node_body
      { tree_disable_updates := true, node_disable_updates := false,
        payload := 3 }).tree_disable_updates = false :=
  ⟨rfl,
    (c9_flag_reset true c9_body c9_body c9_node_body
      { disable_updates := false, payload := 0 }
      { disable_updates := true, payload := 5 }
      { tree_disable_updates := true, node_disable_updates := false, payload := 3 }
      rfl).1,
    (c9_flag_reset true c9_body c9_body c9_node_body
      { disable_updates := false, payload := 0 }
      { disable_updates := true, payload := 5 }
      { tree_disable_updates := true, node_disable_updates := false, payload := 3 }
      rfl).2.1,
    (c9_flag_reset true c9_body c9_body c9_node_body
      { disable_updates := false, payload := 0 }
      { disable_updates := true, payload := 5 }
      { tree_disable_updates := true, node_disable_updates := false, payload := 3 }
      rfl).2.2.1⟩

/-! C7: `GLSLTranspiler.call`. -/

def out_chars : List Char := ['o', 'u', 't']

def inout_chars : List Char := ['i', 'n', 'o', 'u', 't']

/-- Python `parameter['io'] in ['out', 'inout']`. -/
def is_out_role (r : List Char) : Bool :=
  r == out_chars || r == inout_chars

/-- One reflected function parameter: `parameter['name']`,
`parameter['type']`, `parameter['size']` and `parameter['io']`. -/
structure FParam where
  name : List Char
  type : List Char
  size : Nat
  io_role : List Char
deriving DecidableEq

/-- A reflected function descriptor: `function['name']`,
`function['type']` and `function['parameters']`. -/
structure FunctionDesc where
  name : List Char
  type : List Char
  parameters : List FParam
deriving DecidableEq

/-- The `for i, parameter in enumerate(function['parameters'])` loop of
`GLSLTranspiler.call`; the in-place mutation `parameters[i] = ...` is
modelled with `List.set` and an index lookup past the end of the
argument list (Python IndexError) gives `none`. -/
def glsl_call_loop (node_name : List Char) :
    List FParam → Nat → List (Option (List Char)) →
    Option (List Char × List (Option (List Char)))
  | [], _, args => some ([], args)
  | p :: ps, i, args =>
    if is_out_role p.io_role then
      match args[i]? with
      | none => none
      | some initialization =>
        let src_reference := parameter_reference node_name p.name
        match glsl_call_loop node_name ps (i + 1) (args.set i (some src_reference)) with
        | none => none
        | some (src, args2) =>
          some (declaration p.type p.size src_reference initialization ++ src, args2)
    else glsl_call_loop node_name ps (i + 1) args

/-- Python `','.join(parameters)`: joining a list that still contains
`None` raises (TypeError), modelled by requiring every element to be a
string first. -/
def all_some : List (Option (List Char)) → Option (List (List Char))
  | [] => some []
  | none :: _ => none
  | some x :: rest =>
    match all_some rest with
    | none => none
    | some xs => some (x :: xs)

def join_comma : List (List Char) → List Char
  | [] => []
  | [x] => x
  | x :: y :: rest => x ++ ',' :: join_comma (y :: rest)

/-- `GLSLTranspiler.call`: pre-declare a local for every out/inout
parameter, rewrite that argument slot to the local, then emit the call,
captured into a `result` local when the return type is non-void and
instantiable, and as a bare statement otherwise. -/
def glsl_call (function : FunctionDesc) (name : List Char)
    (parameters : List (Option (List Char))) : Option (List Char) :=
  match glsl_call_loop name function.parameters 0 parameters with
  | none => none
  | some (src, parameters2) =>
    match all_some parameters2 with
    | none => none
    | some strs =>
      let initialization := function.name ++ '(' :: join_comma strs ++ [')']
      if function.type != void_chars && is_instantiable_type function.type then
        some (src ++ declaration function.type 0
          (parameter_reference name result_name) (some initialization))
      else some (src ++ initialization ++ [';', '\n'])

/-- Modelled from the claim's wording: the out/inout pre-declarations,
in parameter order, each a local named by `parameter_reference` and
initialized from the caller-provided expression. -/
def spec_out_decls (node_name : List Char)
    (pas : List (FParam × Option (List Char))) : List Char :=
  (pas.map fun pa =>
    if is_out_role pa.1.io_role then
      declaration pa.1.type pa.1.size (parameter_reference node_name pa.1.name) pa.2
    else []).flatten

/-- Modelled from the claim's wording: the argument list with each
out/inout slot rewritten to its pre-declared local. -/
def spec_rewritten (node_name : List Char)
    (pas : List (FParam × Option (List Char))) : List (Option (List Char)) :=
  pas.map fun pa =>
    if is_out_role pa.1.io_role then
      some (parameter_reference node_name pa.1.name)
    else pa.2

/-- Modelled from the claim's wording: pre-declarations first, then the
call over the rewritten arguments, captured into the `result` local
when the return type is non-void and instantiable, bare otherwise. -/
def spec_call (function : FunctionDesc) (node_name : List Char)
    (args : List (Option (List Char))) : List Char :=
  let pas := function.parameters.zip args
  let call_expr := function.name ++ '(' ::
    join_comma ((spec_rewritten node_name pas).map fun o => o.getD []) ++ [')']
  spec_out_decls node_name pas ++
    (if function.type != void_chars && is_instantiable_type function.type then
      declaration function.type 0 (parameter_reference node_name result_name)
        (some call_expr)
    else call_expr ++ [';', '\n'])

theorem set_length_append {α : Type} :
    ∀ (l1 : List α) (x v : α) (l2 : List α),
      (l1 ++ x :: l2).set l1.length v = l1 ++ v :: l2 := by
  intro l1
  induction l1 with
  | nil => intro x v l2; rfl
  | cons a l ih => intro x v l2; simp [List.set, ih]

theorem glsl_call_loop_eq (node_name : List Char) :
    ∀ (ps : List FParam) (pre rest : List (Option (List Char))),
      rest.length = ps.length →
      glsl_call_loop node_name ps pre.length (pre ++ rest) =
        some (spec_out_decls node_name (ps.zip rest),
          pre ++ spec_rewritten node_name (ps.zip rest)) := by
  intro ps
  induction ps with
  | nil =>
    intro pre rest hlen
    have : rest = [] := List.length_eq_zero.mp hlen
    subst this
    simp [glsl_call_loop, spec_out_decls, spec_rewritten]
  | cons p ps ih =>
    intro pre rest hlen
    cases rest with
    | nil => cases hlen
    | cons r rest =>
      have hlen2 : rest.length = ps.length := by simpa using hlen
      by_cases hout : is_out_role p.io_role
      · have hget : (pre ++ r :: rest)[pre.length]? = some r := by
          rw [List.getElem?_append_right (Nat.le_refl _)]
          simp
        have hset : (pre ++ r :: rest).set pre.length
            (some (parameter_reference node_name p.name)) =
            pre ++ some (parameter_reference node_name p.name) :: rest :=
          set_length_append pre r _ rest
        have hrec := ih (pre ++ [some (parameter_reference node_name p.name)]) rest hlen2
        rw [List.append_assoc, List.singleton_append] at hrec
        have hlen3 : pre.length + 1 = (pre ++ [some (parameter_reference node_name p.name)]).length := by
          simp
        rw [glsl_call_loop]
        simp only [hout, if_true, hget, hset, hlen3, hrec]
        simp [spec_out_decls, spec_rewritten, hout, List.append_assoc]
      · have hrec := ih (pre ++ [r]) rest hlen2
        rw [List.append_assoc, List.singleton_append] at hrec
        have hlen3 : pre.length + 1 = (pre ++ [r]).length := by simp
        rw [glsl_call_loop, if_neg (by simpa using hout), hlen3, hrec]
        simp [spec_out_decls, spec_rewritten, hout, List.append_assoc]

theorem all_some_eq_of_no_none :
    ∀ l : List (Option (List Char)), (∀ x ∈ l, x ≠ none) →
      all_some l = some (l.map fun o => o.getD []) := by
  intro l
  induction l with
  | nil => intro _; rfl
  | cons x rest ih =>
    intro h
    cases x with
    | none => exact absurd rfl (h none (List.mem_cons_self _ _))
    | some v =>
      rw [all_some, ih fun y hy => h y (List.mem_cons_of_mem _ hy)]
      rfl

/-- C7: whenever the argument list matches the parameter list in length
and provides an expression for every non-out slot (exactly what
`MaltFunctionNode.get_source_code` assembles), `GLSLTranspiler.call`
succeeds and produces precisely the claim's shape: the out/inout
pre-declarations in order, then the call over the rewritten arguments,
captured into the `result` local for a non-void instantiable return
type and bare otherwise. -/
theorem c7_glsl_call_matches_spec (function : FunctionDesc) (name : List Char)
    (args : List (Option (List Char)))
    (hlen : args.length = function.parameters.length)
    (hin : ∀ pa ∈ function.parameters.zip args,
      is_out_role pa.1.io_role = false → pa.2 ≠ none) :
    glsl_call function name args = some (spec_call function name args) := by
  have hloop := glsl_call_loop_eq name function.parameters [] args hlen
  simp only [List.nil_append, List.length_nil] at hloop
  have hnn : ∀ x ∈ spec_rewritten name (function.parameters.zip args), x ≠ none := by
    intro x hx
    rcases List.mem_map.mp hx with ⟨pa, hpa, heq⟩
    by_cases hout : is_out_role pa.1.io_role
    · rw [← heq]; simp [spec_rewritten, hout]
    · rw [← heq]
      simp only [spec_rewritten, if_neg hout]
      exact hin pa hpa (Bool.not_eq_true _ ▸ by simpa using hout)
  have hjoin := all_some_eq_of_no_none _ hnn
  unfold glsl_call spec_call
  simp only [hloop, hjoin]
  split <;> simp [List.append_assoc]

def c7_function : FunctionDesc :=
  ⟨['f'], ['f', 'l', 'o', 'a', 't'],
    [⟨['a'], ['f', 'l', 'o', 'a', 't'], 0, ['i', 'n']⟩,
     ⟨['b'], ['f', 'l', 'o', 'a', 't'], 0, out_chars⟩]⟩

/-- C7 witness: the equivalence applied to a concrete float function
with one `in` and one `out` parameter. -/
theorem c7_glsl_call_witness :
    glsl_call c7_function ['_', 'n'] [some ['x'], some ['y']] =
      some (spec_call c7_function ['_', 'n'] [some ['x'], some ['y']]) :=
  c7_glsl_call_matches_spec c7_function ['_', 'n'] [some ['x'], some ['y']]
    (by decide) (by decide)

/-! C6: `MaltTree.get_generated_source` and `add_node_inputs`. -/

/-- The mutable state of `add_node_inputs`: `lst` is the per-root
`list` argument (the emission order of one root's subgraph) and `lnk`
the `linked_nodes` list shared by every root (the union used for the
global-parameter block).  Nodes are identified by `Nat` ids. -/
structure AState where
  lst : List Nat
  lnk : List Nat
deriving DecidableEq

/-- Helper for the second `if` of `add_node_inputs`:
`if new_node not in linked_nodes: linked_nodes.append(new_node)`. -/
def push_linked (st : AState) (n : Nat) : AState :=
  if n ∈ st.lnk then st else AState.mk st.lst (st.lnk ++ [n])

/-- `add_node_inputs` from `MaltTree.get_generated_source`.  `g n`
lists the `from_node` id of every linked input of node `n` in socket
order, and `pending` is the remainder of that list still to be
processed for the node currently being visited.  For each upstream
node: if it is not yet in `lst`, recurse into its inputs first and
append it to `lst`; in any case ensure it is in `lnk`.  The source
recursion has no cycle guard; the fuel bounds Python's recursion depth
and `none` marks a run that never returns. -/
def add_node_inputs (g : Nat → List Nat) : Nat → List Nat → AState → Option AState
  | 0, _, _ => none
  | _ + 1, [], st => some st
  | fuel + 1, new_node :: rest, st =>
    if new_node ∈ st.lst then
      add_node_inputs g fuel rest (push_linked st new_node)
    else
      match add_node_inputs g fuel (g new_node) st with
      | none => none
      | some st' =>
        add_node_inputs g fuel rest
          (push_linked (AState.mk (st'.lst ++ [new_node]) st'.lnk) new_node)

/-- The `for output in output_nodes: shader[...] = get_source(output)`
loop of `MaltTree.get_generated_source`: each root gets a fresh `nodes`
list while `linked_nodes` is threaded through all roots. -/
def run_roots (g : Nat → List Nat) (fuel : Nat) :
    List Nat → List Nat → Option (List (List Nat) × List Nat)
  | [], lnk => some ([], lnk)
  | root :: rest, lnk =>
    match add_node_inputs g fuel (g root) (AState.mk [] lnk) with
    | none => none
    | some st =>
      match run_roots g fuel rest st.lnk with
      | none => none
      | some (lists, lnk2) => some (st.lst :: lists, lnk2)

/-- `MaltTree.get_generated_source`, restricted to the node-collection
structure that determines emission multiplicity: the roots are the
output Graph-I/O nodes in graph order and seed `linked_nodes`; the
result pairs each root's per-subgraph emission list with the final
union list.  Each node of a per-root list has its local code emitted
once into that root's text, and each node of the union list has its
global parameters emitted once into the GLOBAL block. -/
def get_generated_lists (nodes : List Nat) (is_output_node : Nat → Bool)
    (g : Nat → List Nat) (fuel : Nat) : Option (List (List Nat) × List Nat) :=
  let output_nodes := nodes.filter is_output_node
  run_roots g fuel output_nodes output_nodes

/-- Upstream reachability through linked inputs (one or more edges). -/
inductive Reach (g : Nat → List Nat) : Nat → Nat → Prop
  | single {n m : Nat} : m ∈ g n → Reach g n m
  | tail {n m v : Nat} : m ∈ g n → Reach g m v → Reach g n v

/-- Acyclicity of the linked-input relation, witnessed by a rank
function that strictly decreases along every edge. -/
def Ranked (g : Nat → List Nat) (rank : Nat → Nat) : Prop :=
  ∀ n m, m ∈ g n → rank m < rank n

/-- Every list whose members' inputs are again members. -/
def InputsClosed (g : Nat → List Nat) (l : List Nat) : Prop :=
  ∀ x ∈ l, ∀ m ∈ g x, m ∈ l

theorem reach_rank_lt {g : Nat → List Nat} {rank : Nat → Nat} {n v : Nat}
    (hr : Ranked g rank) (h : Reach g n v) : rank v < rank n := by
  induction h with
  | single h1 => exact hr _ _ h1
  | tail h1 _ ih => exact ih.trans (hr _ _ h1)

theorem not_reach_self {g : Nat → List Nat} {rank : Nat → Nat} {n : Nat}
    (hr : Ranked g rank) : ¬ Reach g n n :=
  fun h => lt_irrefl _ (reach_rank_lt hr h)

theorem push_linked_lst (st : AState) (n : Nat) : (push_linked st n).lst = st.lst := by
  unfold push_linked
  split <;> rfl

theorem push_linked_lnk_sub (st : AState) (n : Nat) :
    st.lnk ⊆ (push_linked st n).lnk := by
  unfold push_linked
  split
  · exact fun x hx => hx
  · exact fun x hx => List.mem_append_left _ hx

theorem push_linked_mem (st : AState) (n : Nat) : n ∈ (push_linked st n).lnk := by
  unfold push_linked
  split
  · assumption
  · simp

theorem nodup_append_singleton {l : List Nat} {n : Nat}
    (h : l.Nodup) (h2 : n ∉ l) : (l ++ [n]).Nodup := by
  rw [List.nodup_append]
  refine ⟨h, List.nodup_singleton n, ?_⟩
  intro a ha hb
  simp only [List.mem_singleton] at hb
  exact h2 (hb ▸ ha)

theorem push_linked_lnk_nodup (st : AState) (n : Nat) (h : st.lnk.Nodup) :
    (push_linked st n).lnk.Nodup := by
  unfold push_linked
  split
  · exact h
  · exact nodup_append_singleton h (by assumption)

theorem add_node_inputs_mono (g : Nat → List Nat) :
    ∀ fuel pending st st', add_node_inputs g fuel pending st = some st' →
      st.lst ⊆ st'.lst ∧ st.lnk ⊆ st'.lnk := by
  intro fuel
  induction fuel with
  | zero => intro pending st st' h; simp [add_node_inputs] at h
  | succ f ih =>
    intro pending st st' h
    cases pending with
    | nil =>
      rw [add_node_inputs] at h
      cases h
      exact ⟨fun x hx => hx, fun x hx => hx⟩
    | cons new rest =>
      rw [add_node_inputs] at h
      by_cases hmem : new ∈ st.lst
      · rw [if_pos hmem] at h
        obtain ⟨h1, h2⟩ := ih rest (push_linked st new) st' h
        rw [push_linked_lst] at h1
        exact ⟨h1, List.Subset.trans (push_linked_lnk_sub st new) h2⟩
      · rw [if_neg hmem] at h
        cases hrec : add_node_inputs g f (g new) st with
        | none => rw [hrec] at h; cases h
        | some st1 =>
          rw [hrec] at h
          obtain ⟨h1, h2⟩ := ih (g new) st st1 hrec
          obtain ⟨h3, h4⟩ := ih rest _ st' h
          rw [push_linked_lst] at h3
          refine ⟨fun x hx => h3 (List.mem_append_left _ (h1 hx)), ?_⟩
          exact fun x hx =>
            h4 (push_linked_lnk_sub (AState.mk (st1.lst ++ [new]) st1.lnk) new (h2 hx))

theorem add_node_inputs_lnk_nodup (g : Nat → List Nat) :
    ∀ fuel pending st st', add_node_inputs g fuel pending st = some st' →
      st.lnk.Nodup → st'.lnk.Nodup := by
  intro fuel
  induction fuel with
  | zero => intro pending st st' h; simp [add_node_inputs] at h
  | succ f ih =>
    intro pending st st' h hnd
    cases pending with
    | nil => rw [add_node_inputs] at h; cases h; exact hnd
    | cons new rest =>
      rw [add_node_inputs] at h
      by_cases hmem : new ∈ st.lst
      · rw [if_pos hmem] at h
        exact ih rest _ st' h (push_linked_lnk_nodup st new hnd)
      · rw [if_neg hmem] at h
        cases hrec : add_node_inputs g f (g new) st with
        | none => rw [hrec] at h; cases h
        | some st1 =>
          rw [hrec] at h
          have hnd1 := ih (g new) st st1 hrec hnd
          exact ih rest _ st' h
            (push_linked_lnk_nodup (AState.mk (st1.lst ++ [new]) st1.lnk) new hnd1)

theorem add_node_inputs_scope (g : Nat → List Nat) :
    ∀ fuel pending st st', add_node_inputs g fuel pending st = some st' →
      ∀ x ∈ st'.lst, x ∈ st.lst ∨ x ∈ pending ∨ ∃ p ∈ pending, Reach g p x := by
  intro fuel
  induction fuel with
  | zero => intro pending st st' h; simp [add_node_inputs] at h
  | succ f ih =>
    intro pending st st' h x hx
    cases pending with
    | nil => rw [add_node_inputs] at h; cases h; exact Or.inl hx
    | cons new rest =>
      rw [add_node_inputs] at h
      by_cases hmem : new ∈ st.lst
      · rw [if_pos hmem] at h
        have := ih rest (push_linked st new) st' h x hx
        rw [push_linked_lst] at this
        rcases this with h1 | h1 | ⟨p, hp, hr⟩
        · exact Or.inl h1
        · exact Or.inr (Or.inl (List.mem_cons_of_mem _ h1))
        · exact Or.inr (Or.inr ⟨p, List.mem_cons_of_mem _ hp, hr⟩)
      · rw [if_neg hmem] at h
        cases hrec : add_node_inputs g f (g new) st with
        | none => rw [hrec] at h; cases h
        | some st1 =>
          rw [hrec] at h
          have hout := ih rest _ st' h x hx
          rw [push_linked_lst] at hout
          rcases hout with h1 | h1 | ⟨p, hp, hr⟩
          · rcases List.mem_append.mp h1 with h2 | h2
            · have := ih (g new) st st1 hrec x h2
              rcases this with h3 | h3 | ⟨q, hq, hr2⟩
              · exact Or.inl h3
              · exact Or.inr (Or.inr ⟨new, List.mem_cons_self _ _, Reach.single h3⟩)
              · exact Or.inr (Or.inr ⟨new, List.mem_cons_self _ _, Reach.tail hq hr2⟩)
            · simp only [List.mem_singleton] at h2
              exact Or.inr (Or.inl (h2 ▸ List.mem_cons_self _ _))
          · exact Or.inr (Or.inl (List.mem_cons_of_mem _ h1))
          · exact Or.inr (Or.inr ⟨p, List.mem_cons_of_mem _ hp, hr⟩)

theorem add_node_inputs_lst_nodup (g : Nat → List Nat) (rank : Nat → Nat)
    (hr : Ranked g rank) :
    ∀ fuel pending st st', add_node_inputs g fuel pending st = some st' →
      st.lst.Nodup → st'.lst.Nodup := by
  intro fuel
  induction fuel with
  | zero => intro pending st st' h; simp [add_node_inputs] at h
  | succ f ih =>
    intro pending st st' h hnd
    cases pending with
    | nil => rw [add_node_inputs] at h; cases h; exact hnd
    | cons new rest =>
      rw [add_node_inputs] at h
      by_cases hmem : new ∈ st.lst
      · rw [if_pos hmem] at h
        have := ih rest (push_linked st new) st' h
        rw [push_linked_lst] at this
        exact this hnd
      · rw [if_neg hmem] at h
        cases hrec : add_node_inputs g f (g new) st with
        | none => rw [hrec] at h; cases h
        | some st1 =>
          rw [hrec] at h
          have hnd1 := ih (g new) st st1 hrec hnd
          have hnotin : new ∉ st1.lst := by
            intro hin
            rcases add_node_inputs_scope g f (g new) st st1 hrec new hin with
              h1 | h1 | ⟨p, hp, hreach⟩
            · exact hmem h1
            · exact not_reach_self hr (Reach.single h1)
            · exact not_reach_self hr (Reach.tail hp hreach)
          have := ih rest _ st' h
          rw [push_linked_lst] at this
          exact this (nodup_append_singleton hnd1 hnotin)

theorem add_node_inputs_closed (g : Nat → List Nat) :
    ∀ fuel pending st st', add_node_inputs g fuel pending st = some st' →
      InputsClosed g st.lst →
      InputsClosed g st'.lst ∧ ∀ p ∈ pending, p ∈ st'.lst := by
  intro fuel
  induction fuel with
  | zero => intro pending st st' h; simp [add_node_inputs] at h
  | succ f ih =>
    intro pending st st' h hcl
    cases pending with
    | nil =>
      rw [add_node_inputs] at h
      cases h
      exact ⟨hcl, by intro p hp; cases hp⟩
    | cons new rest =>
      rw [add_node_inputs] at h
      by_cases hmem : new ∈ st.lst
      · rw [if_pos hmem] at h
        have hih := ih rest (push_linked st new) st' h
        rw [push_linked_lst] at hih
        obtain ⟨h1, h2⟩ := hih hcl
        refine ⟨h1, ?_⟩
        intro p hp
        rcases List.mem_cons.mp hp with h3 | h3
        · have hmono := add_node_inputs_mono g f rest (push_linked st new) st' h
          rw [push_linked_lst] at hmono
          rw [h3]
          exact hmono.1 hmem
        · exact h2 p h3
      · rw [if_neg hmem] at h
        cases hrec : add_node_inputs g f (g new) st with
        | none => rw [hrec] at h; cases h
        | some st1 =>
          rw [hrec] at h
          obtain ⟨hcl1, hsub1⟩ := ih (g new) st st1 hrec hcl
          have hcl2 : InputsClosed g (st1.lst ++ [new]) := by
            intro x hx m hm
            rcases List.mem_append.mp hx with h1 | h1
            · exact List.mem_append_left _ (hcl1 x h1 m hm)
            · simp only [List.mem_singleton] at h1
              subst h1
              exact List.mem_append_left _ (hsub1 m hm)
          have hih := ih rest _ st' h
          rw [push_linked_lst] at hih
          obtain ⟨h1, h2⟩ := hih hcl2
          refine ⟨h1, ?_⟩
          intro p hp
          rcases List.mem_cons.mp hp with h3 | h3
          · subst h3
            have hmono := add_node_inputs_mono g f rest _ st' h
            rw [push_linked_lst] at hmono
            exact hmono.1 (List.mem_append_right _ (List.mem_singleton_self _))
          · exact h2 p h3

theorem reach_mem_of_closed {g : Nat → List Nat} {l : List Nat} {n v : Nat}
    (hcl : InputsClosed g l) (hsub : ∀ m ∈ g n, m ∈ l) (h : Reach g n v) : v ∈ l := by
  induction h with
  | single h1 => exact hsub _ h1
  | @tail a m w h1 h2 ih => exact ih fun x hx => hcl m (hsub m h1) x hx

theorem add_node_inputs_lst_sub_lnk (g : Nat → List Nat) :
    ∀ fuel pending st st', add_node_inputs g fuel pending st = some st' →
      st.lst ⊆ st.lnk → st'.lst ⊆ st'.lnk := by
  intro fuel
  induction fuel with
  | zero => intro pending st st' h; simp [add_node_inputs] at h
  | succ f ih =>
    intro pending st st' h hsub
    cases pending with
    | nil => rw [add_node_inputs] at h; cases h; exact hsub
    | cons new rest =>
      rw [add_node_inputs] at h
      by_cases hmem : new ∈ st.lst
      · rw [if_pos hmem] at h
        refine ih rest (push_linked st new) st' h ?_
        rw [push_linked_lst]
        exact fun x hx => push_linked_lnk_sub st new (hsub hx)
      · rw [if_neg hmem] at h
        cases hrec : add_node_inputs g f (g new) st with
        | none => rw [hrec] at h; cases h
        | some st1 =>
          rw [hrec] at h
          have hsub1 := ih (g new) st st1 hrec hsub
          refine ih rest _ st' h ?_
          rw [push_linked_lst]
          intro x hx
          rcases List.mem_append.mp hx with h1 | h1
          · exact push_linked_lnk_sub _ new (hsub1 h1)
          · simp only [List.mem_singleton] at h1
            subst h1
            exact push_linked_mem _ x

theorem run_roots_lnk (g : Nat → List Nat) (fuel : Nat) :
    ∀ (roots : List Nat) (lnk : List Nat) (lists : List (List Nat)) (lnk2 : List Nat),
      run_roots g fuel roots lnk = some (lists, lnk2) →
      lnk ⊆ lnk2 ∧ (lnk.Nodup → lnk2.Nodup) := by
  intro roots
  induction roots with
  | nil =>
    intro lnk lists lnk2 h
    rw [run_roots] at h
    cases h
    exact ⟨fun x hx => hx, fun hx => hx⟩
  | cons root rest ih =>
    intro lnk lists lnk2 h
    rw [run_roots] at h
    cases hrec : add_node_inputs g fuel (g root) (AState.mk [] lnk) with
    | none => rw [hrec] at h; cases h
    | some st =>
      simp only [hrec] at h
      cases hrr : run_roots g fuel rest st.lnk with
      | none => simp only [hrr] at h; exact Option.noConfusion h
      | some p =>
        obtain ⟨lists1, lnk3⟩ := p
        simp only [hrr, Option.some.injEq, Prod.mk.injEq] at h
        obtain ⟨h3, h4⟩ := h
        subst h4
        obtain ⟨h1, h2⟩ := ih st.lnk lists1 lnk3 hrr
        have hmono := (add_node_inputs_mono g fuel (g root) _ st hrec).2
        refine ⟨fun x hx => h1 (hmono hx), fun hnd => h2 ?_⟩
        exact add_node_inputs_lnk_nodup g fuel (g root) _ st hrec hnd

theorem run_roots_forall (g : Nat → List Nat) (rank : Nat → Nat)
    (hr : Ranked g rank) (fuel : Nat) :
    ∀ (roots : List Nat) (lnk : List Nat) (lists : List (List Nat)) (lnk2 : List Nat),
      run_roots g fuel roots lnk = some (lists, lnk2) →
      List.Forall₂ (fun root l =>
        l.Nodup ∧ InputsClosed g l ∧ (∀ m ∈ g root, m ∈ l) ∧ l ⊆ lnk2) roots lists := by
  intro roots
  induction roots with
  | nil =>
    intro lnk lists lnk2 h
    rw [run_roots] at h
    cases h
    exact List.Forall₂.nil
  | cons root rest ih =>
    intro lnk lists lnk2 h
    rw [run_roots] at h
    cases hrec : add_node_inputs g fuel (g root) (AState.mk [] lnk) with
    | none => rw [hrec] at h; cases h
    | some st =>
      simp only [hrec] at h
      cases hrr : run_roots g fuel rest st.lnk with
      | none => simp only [hrr] at h; exact Option.noConfusion h
      | some p =>
        obtain ⟨lists1, lnk3⟩ := p
        simp only [hrr, Option.some.injEq, Prod.mk.injEq] at h
        obtain ⟨h3, h4⟩ := h
        subst h3
        subst h4
        refine List.Forall₂.cons ⟨?_, ?_, ?_, ?_⟩ (ih st.lnk lists1 lnk3 hrr)
        · exact add_node_inputs_lst_nodup g rank hr fuel (g root) _ st hrec
            List.nodup_nil
        · exact (add_node_inputs_closed g fuel (g root) _ st hrec
            (by intro x hx; cases hx)).1
        · exact (add_node_inputs_closed g fuel (g root) _ st hrec
            (by intro x hx; cases hx)).2
        · have hsub := add_node_inputs_lst_sub_lnk g fuel (g root) _ st hrec
            (by intro x hx; cases hx)
          have hlnk := (run_roots_lnk g fuel rest st.lnk lists1 lnk3 hrr).1
          exact fun x hx => hlnk (hsub hx)

/-- C6: in any acyclic graph, for any recursion depth at which the
collection succeeds, every node `v` that is upstream-reachable from an
exit node appears exactly once in that exit's per-root emission list
(its local code is emitted once in that root's source text) and exactly
once in the final `linked_nodes` union (its global-parameter
declarations are emitted once in the combined GLOBAL block), however
many exit nodes reach it. -/
theorem c6_shared_upstream_node_emitted_once
    (nodes : List Nat) (is_output_node : Nat → Bool) (g : Nat → List Nat)
    (rank : Nat → Nat) (fuel : Nat) (lists : List (List Nat))
    (linked_nodes : List Nat) (v : Nat)
    (hrank : Ranked g rank)
    (hnodes : (nodes.filter is_output_node).Nodup)
    (hrun : get_generated_lists nodes is_output_node g fuel = some (lists, linked_nodes)) :
    List.Forall₂ (fun root l =>
        Reach g root v → List.count v l = 1 ∧ List.count v linked_nodes = 1)
      (nodes.filter is_output_node) lists := by
  unfold get_generated_lists at hrun
  have hfa := run_roots_forall g rank hrank fuel _ _ _ _ hrun
  have hlnk := run_roots_lnk g fuel _ _ _ _ hrun
  have hlnknd : linked_nodes.Nodup := hlnk.2 hnodes
  refine hfa.imp ?_
  intro root l hprop hreach
  obtain ⟨hnd, hcl, hin, hsub⟩ := hprop
  have hv : v ∈ l := reach_mem_of_closed hcl hin hreach
  exact ⟨List.count_eq_one_of_mem hnd hv,
    List.count_eq_one_of_mem hlnknd (hsub hv)⟩

/-- The witness graph: exit nodes 2 and 3 both consume node 1, which
consumes leaf node 0. -/
def c6_g : Nat → List Nat := fun n =>
  if n = 1 then [0] else if n = 2 then [1] else if n = 3 then [1] else []

def c6_is_output : Nat → Bool := fun n => n == 2 || n == 3

def c6_nodes : List Nat := [2, 3, 0, 1]

theorem c6_g_ranked : Ranked c6_g (fun n => n) := by
  intro n m hm
  show m < n
  unfold c6_g at hm
  by_cases h1 : n = 1
  · simp [h1] at hm; omega
  · by_cases h2 : n = 2
    · simp [h1, h2] at hm; omega
    · by_cases h3 : n = 3
      · simp [h1, h2, h3] at hm; omega
      · simp [h1, h2, h3] at hm

/-- C6 witness: in the concrete diamond graph the shared node 1 is
reachable from both exits and is counted once per root list and once
in the union list. -/
theorem c6_witness :
    Reach c6_g 2 1 ∧ Reach c6_g 3 1 ∧
    List.Forall₂ (fun root l =>
        Reach c6_g root 1 → List.count 1 l = 1 ∧ List.count 1 [2, 3, 0, 1] = 1)
      [2, 3] [[0, 1], [0, 1]] := by
  refine ⟨Reach.single (by decide), Reach.single (by decide), ?_⟩
  have h := c6_shared_upstream_node_emitted_once c6_nodes c6_is_output c6_g
    (fun n => n) 10 [[0, 1], [0, 1]] [2, 3, 0, 1] 1 c6_g_ranked (by decide) (by decide)
  have hfilter : c6_nodes.filter c6_is_output = [2, 3] := by decide
  rw [hfilter] at h
  exact h

end MaltNodes
